import Mathlib

/-!
Shallow embedding of `src/toJson.py`, a line-oriented converter that turns a
textual dump of automaton states (`State N` headers followed by bracketed item
lines `[inner]: value`) into a table keyed by state number.

Strings are modelled as lists of characters.  The two regular expressions
`STATE_RE = ^\s*State\s+(\d+)\s*$` and `ITEM_RE = ^\s*\[(.*)\]\s*:\s*(\d+)\s*$`
are modelled by the explicit matchers `matchState` and `matchItem` below, with
the greedy semantics of `(.*)` (the captured inner text extends to the last
`]` whose suffix still matches `\s*:\s*(\d+)\s*$`).  The Python dict (which
preserves insertion order) is modelled by an ordered association list.
-/

/-- Strings are modelled as lists of characters. -/
abbrev Str := List Char

/-- ASCII whitespace, as matched by the regex class `\s` and by `str.strip()`. -/
def pyIsSpace (c : Char) : Bool :=
  c == ' ' || c == '\t' || c == '\n' || c == '\r' || c == '\x0b' || c == '\x0c'

/-- Drop trailing whitespace (the right half of Python `str.strip()`). -/
def dropTrailing : Str → Str
  | [] => []
  | c :: cs =>
    match dropTrailing cs with
    | [] => if pyIsSpace c then [] else [c]
    | x :: xs => c :: x :: xs

/-- Python `str.strip()`: remove leading and trailing whitespace. -/
def strip (s : Str) : Str := dropTrailing (s.dropWhile pyIsSpace)

/-- Python `inner.split(",")`: split on every comma (the separator is a single
character, so substring split and character split agree). -/
def splitComma : Str → List Str
  | [] => [[]]
  | c :: cs =>
    if c = ',' then [] :: splitComma cs
    else
      match splitComma cs with
      | [] => [[c]]
      | t :: ts => (c :: t) :: ts

/-- Python `", ".join(parts)`. -/
def joinCommaSpace : List Str → Str
  | [] => []
  | [t] => t
  | t :: t2 :: ts => t ++ ',' :: ' ' :: joinCommaSpace (t2 :: ts)

/-- The filter of `normalize_key`: a stripped token is kept unless it is
exactly `T`, exactly `NT`, or empty (`p not in ("T", "NT") and p != ""`). -/
def isKept (p : Str) : Bool :=
  !(p == "T".data) && !(p == "NT".data) && !(p == ([] : Str))

/-- `normalize_key` from `toJson.py`: split the inner text on commas, strip
each part, drop `T`/`NT`/empty parts, rejoin with `", "` inside brackets. -/
def normalize_key (inner : Str) : Str :=
  '[' :: (joinCommaSpace (((splitComma inner).map strip).filter isKept) ++ [']'])

/-- `",".join ts`: used to present a raw key as a comma-separated token list. -/
def joinComma : List Str → Str
  | [] => []
  | [t] => t
  | t :: t2 :: ts => t ++ ',' :: joinComma (t2 :: ts)

/-- The text between the outer bracket delimiters of a normalized key. -/
def innerText (s : Str) : Str := (s.drop 1).dropLast

/-- Match a literal character sequence at the front, returning the remainder. -/
def dropLit : Str → Str → Option Str
  | [], s => some s
  | _ :: _, [] => none
  | p :: ps, c :: cs => if c = p then dropLit ps cs else none

/-- Python `int` on a digit string (`\d+` capture). -/
def digitsToNat (ds : Str) : Nat :=
  ds.foldl (fun n c => 10 * n + (c.toNat - '0'.toNat)) 0

/-- Match the pattern `(\d+)\s*$`: a non-empty digit capture followed only by
whitespace, returning the parsed value. -/
def digitsThenSpace (r2 : Str) : Option Nat :=
  let ds := r2.takeWhile Char.isDigit
  let rest := r2.dropWhile Char.isDigit
  if !ds.isEmpty && rest.all pyIsSpace then some (digitsToNat ds) else none

/-- `STATE_RE.match(line)`: `^\s*State\s+(\d+)\s*$`, returning the state
number parsed from the digit capture. -/
def matchState (line : Str) : Option Nat :=
  match dropLit "State".data (line.dropWhile pyIsSpace) with
  | some (c :: cs) =>
    if pyIsSpace c then digitsThenSpace (cs.dropWhile pyIsSpace) else none
  | _ => none

/-- Match the suffix pattern `\s*:\s*(\d+)\s*$`, returning the value capture. -/
def tailValue (s : Str) : Option Nat :=
  match s.dropWhile pyIsSpace with
  | ':' :: r => digitsThenSpace (r.dropWhile pyIsSpace)
  | _ => none

/-- Greedy `(.*)\]\s*:\s*(\d+)\s*$`: split at the LAST `]` whose suffix
matches `tailValue`, returning the text before it and the value. -/
def splitLastBracket : Str → Option (Str × Nat)
  | [] => none
  | c :: cs =>
    match splitLastBracket cs with
    | some (inner, v) => some (c :: inner, v)
    | none => if c = ']' then (tailValue cs).map (fun v => (([] : Str), v)) else none

/-- `ITEM_RE.match(line)`: `^\s*\[(.*)\]\s*:\s*(\d+)\s*$` with greedy `(.*)`. -/
def matchItem (line : Str) : Option (Str × Nat) :=
  match line.dropWhile pyIsSpace with
  | '[' :: rest => splitLastBracket rest
  | _ => none

/-- One record of the output table: a normalized key and its integer value. -/
structure Item where
  key : Str
  value : Nat
deriving DecidableEq

/-- The record built from an item line, if the line matches `ITEM_RE`. -/
def itemOf (line : Str) : Option Item :=
  (matchItem line).map (fun iv => ⟨normalize_key iv.1, iv.2⟩)

/-- The Python dict `data`, as an insertion-ordered association list.  Keys
are the state numbers (serialized as their decimal strings, an injective
rendering, so `Nat` keys are kept here). -/
abbrev Table := List (Nat × List Item)

/-- The member names of a table, in insertion order. -/
def keys (d : Table) : List Nat := d.map (·.1)

/-- Dictionary lookup. -/
def lookupTable : Table → Nat → Option (List Item)
  | [], _ => none
  | e :: d, k => if e.1 = k then some e.2 else lookupTable d k

/-- `data.setdefault(str(k), [])`: keep the table if the key is present,
otherwise append the key with an empty list (dicts append new keys last). -/
def setdefault (d : Table) (k : Nat) : Table :=
  if k ∈ keys d then d else d ++ [(k, [])]

/-- `data[str(k)].append(it)`.  In `convert` the key is always present when
this runs (the current state was set by a header, which `setdefault`ed it). -/
def appendItem (d : Table) (k : Nat) (it : Item) : Table :=
  d.map (fun e => if e.1 = k then (e.1, e.2 ++ [it]) else e)

/-- The mutable context of `convert`'s scan loop. -/
structure ScanState where
  data : Table
  current : Option Nat
  maxSeen : Int
deriving DecidableEq

/-- One loop iteration of `convert`: try `STATE_RE` first, then `ITEM_RE`;
item lines matched with no current state are silently discarded. -/
def step (st : ScanState) (line : Str) : ScanState :=
  match matchState line with
  | some s =>
    { data := setdefault st.data s
      current := some s
      maxSeen := max st.maxSeen (s : Int) }
  | none =>
    match matchItem line, st.current with
    | some iv, some c =>
      { st with data := appendItem st.data c ⟨normalize_key iv.1, iv.2⟩ }
    | _, _ => st

/-- The initial scan context: empty table, no current state, `max = -1`. -/
def initState : ScanState := ⟨[], none, -1⟩

/-- `convert` from `toJson.py`, applied to the list of input lines: scan all
lines, then (when `include_empty_states`) `setdefault` every state in
`range(max_state_seen + 1)`. -/
def convert (lines : List Str) (include_empty_states : Bool := true) : Table :=
  let fin := lines.foldl step initState
  if include_empty_states then
    (List.range (fin.maxSeen + 1).toNat).foldl (fun d s => setdefault d s) fin.data
  else
    fin.data

/-- The state numbers carried by the header lines of the input, in order. -/
def headedStates (lines : List Str) : List Nat := lines.filterMap matchState

/-- The largest state number seen in a header, `-1` when there is none. -/
def maxHeaded (lines : List Str) : Int :=
  (headedStates lines).foldl (fun (m : Int) (s : Nat) => max m (s : Int)) (-1)

/-- Fold a key sequence into an ordered key list, appending each key not yet
present (the key-order effect of repeated `setdefault`). -/
def addKeys : List Nat → List Nat → List Nat
  | ks, [] => ks
  | ks, s :: ss => addKeys (if s ∈ ks then ks else ks ++ [s]) ss

/-- Deduplicate a sequence keeping the first occurrence of each element. -/
def firstSeenAux (seen : List Nat) : List Nat → List Nat
  | [] => []
  | s :: ss => if s ∈ seen then firstSeenAux seen ss else s :: firstSeenAux (s :: seen) ss

/-- The first-appearance order of a sequence of state numbers. -/
def firstSeen (ss : List Nat) : List Nat := firstSeenAux [] ss

/-- Position of the first occurrence of a key in a key list. -/
def posOf (k : Nat) : List Nat → Nat
  | [] => 0
  | s :: ss => if s = k then 0 else posOf k ss + 1

/-- Segment accumulator: `cur` is the open segment (its header's state and
the body lines collected so far); each further header closes it. -/
def segmentsAux (cur : Nat × List Str) : List Str → List (Nat × List Str)
  | [] => [cur]
  | l :: ls =>
    match matchState l with
    | some s => cur :: segmentsAux (s, []) ls
    | none => segmentsAux (cur.1, cur.2 ++ [l]) ls

/-- Split the input into header-delimited segments: each `State s` header
opens a segment holding the lines up to the next header (or end of input);
lines before the first header belong to no segment. -/
def segments : List Str → List (Nat × List Str)
  | [] => []
  | l :: ls =>
    match matchState l with
    | some s => segmentsAux (s, []) ls
    | none => segments ls

/-- The items contributed by one segment: its item lines, in order. -/
def segItems (seg : Nat × List Str) : List Item := seg.2.filterMap itemOf

/-- The items the input assigns to state `s`: the item lines of all segments
headed by `s`, in source order. -/
def itemsOfState (lines : List Str) (s : Nat) : List Item :=
  (((segments lines).filter (fun seg => seg.1 == s)).map segItems).flatten

/-- Items assigned to `s` by a scan that starts inside an open segment for
state `c` with body `acc` already collected. -/
def collectFrom (c : Nat) (acc : List Str) (lines : List Str) (s : Nat) : List Item :=
  (((segmentsAux (c, acc) lines).filter (fun seg => seg.1 == s)).map segItems).flatten

/-- Items assigned to `s` by a scan starting with current state `cur`. -/
def scanItems (cur : Option Nat) (lines : List Str) (s : Nat) : List Item :=
  match cur with
  | none => itemsOfState lines s
  | some c => collectFrom c [] lines s

/-! ### Table lemmas -/

theorem lookupTable_append_some {d d2 : Table} {k : Nat} {v : List Item}
    (h : lookupTable d k = some v) : lookupTable (d ++ d2) k = some v := by
  induction d with
  | nil => simp [lookupTable] at h
  | cons e d ih =>
    by_cases he : e.1 = k
    · simpa [lookupTable, he] using h
    · simp only [lookupTable, he, if_false] at h ⊢
      exact ih h

theorem lookupTable_append_none {d : Table} {k : Nat} (h : lookupTable d k = none)
    (d2 : Table) : lookupTable (d ++ d2) k = lookupTable d2 k := by
  induction d with
  | nil => simp
  | cons e d ih =>
    by_cases he : e.1 = k
    · simp [lookupTable, he] at h
    · simp only [lookupTable, he, if_false] at h ⊢
      exact ih h

theorem mem_keys_iff_lookup {d : Table} {k : Nat} :
    k ∈ keys d ↔ lookupTable d k ≠ none := by
  induction d with
  | nil => simp [keys, lookupTable]
  | cons e d ih =>
    by_cases he : e.1 = k
    · simp [keys, lookupTable, he]
    · rw [show keys (e :: d) = e.1 :: keys d from rfl, List.mem_cons]
      simp only [lookupTable, he, if_false]
      rw [← ih]
      simp [Ne.symm he]

theorem lookupTable_setdefault_self (d : Table) (k : Nat) :
    lookupTable (setdefault d k) k = some ((lookupTable d k).getD []) := by
  unfold setdefault
  by_cases hk : k ∈ keys d
  · rw [if_pos hk]
    rcases Option.ne_none_iff_exists'.1 (mem_keys_iff_lookup.1 hk) with ⟨v, hv⟩
    simp [hv]
  · rw [if_neg hk]
    have hnone : lookupTable d k = none := by
      by_contra hne
      exact hk (mem_keys_iff_lookup.2 hne)
    rw [lookupTable_append_none hnone]
    simp [hnone, lookupTable]

theorem lookupTable_setdefault_other (d : Table) {k j : Nat} (h : j ≠ k) :
    lookupTable (setdefault d k) j = lookupTable d j := by
  unfold setdefault
  by_cases hk : k ∈ keys d
  · rw [if_pos hk]
  · rw [if_neg hk]
    cases hd : lookupTable d j with
    | some v => exact lookupTable_append_some hd
    | none => rw [lookupTable_append_none hd]; simp [lookupTable, Ne.symm h]

theorem lookupTable_appendItem_self (d : Table) (k : Nat) (it : Item) :
    lookupTable (appendItem d k it) k = (lookupTable d k).map (fun v => v ++ [it]) := by
  induction d with
  | nil => simp [appendItem, lookupTable]
  | cons e d ih =>
    by_cases he : e.1 = k
    · simp [appendItem, lookupTable, he]
    · simp only [appendItem, List.map_cons, if_neg he, lookupTable, he, if_false] at ih ⊢
      exact ih

theorem lookupTable_appendItem_other (d : Table) {k j : Nat} (h : j ≠ k) (it : Item) :
    lookupTable (appendItem d k it) j = lookupTable d j := by
  induction d with
  | nil => simp [appendItem, lookupTable]
  | cons e d ih =>
    by_cases he : e.1 = k
    · have : e.1 ≠ j := by rw [he]; exact Ne.symm h
      simp only [appendItem, List.map_cons, if_pos he, lookupTable, this, if_false] at ih ⊢
      exact ih
    · by_cases hj : e.1 = j
      · simp [appendItem, lookupTable, he, hj, h]
      · simp only [appendItem, List.map_cons, if_neg he, lookupTable, hj, if_false] at ih ⊢
        exact ih

theorem keys_appendItem (d : Table) (k : Nat) (it : Item) :
    keys (appendItem d k it) = keys d := by
  induction d with
  | nil => rfl
  | cons e d ih =>
    by_cases he : e.1 = k <;>
      simp only [appendItem, keys, List.map_cons, if_pos, if_neg, he] at ih ⊢ <;>
      simp [ih, he]

theorem keys_setdefault (d : Table) (k : Nat) :
    keys (setdefault d k) = if k ∈ keys d then keys d else keys d ++ [k] := by
  unfold setdefault
  by_cases hk : k ∈ keys d
  · simp [hk]
  · rw [if_neg hk, if_neg hk]
    simp [keys]

/-! ### Segment lemmas -/

theorem headedStates_nil : headedStates [] = [] := rfl

theorem headedStates_cons_header {l : Str} {s : Nat} (h : matchState l = some s)
    (ls : List Str) : headedStates (l :: ls) = s :: headedStates ls := by
  simp [headedStates, List.filterMap_cons, h]

theorem headedStates_cons_junk {l : Str} (h : matchState l = none)
    (ls : List Str) : headedStates (l :: ls) = headedStates ls := by
  simp [headedStates, List.filterMap_cons, h]

theorem headedStates_append (xs ys : List Str) :
    headedStates (xs ++ ys) = headedStates xs ++ headedStates ys := by
  simp [headedStates]

theorem itemsOfState_nil (s : Nat) : itemsOfState [] s = [] := rfl

theorem itemsOfState_cons_junk {l : Str} (h : matchState l = none)
    (ls : List Str) (s : Nat) : itemsOfState (l :: ls) s = itemsOfState ls s := by
  simp [itemsOfState, segments, h]

theorem itemsOfState_cons_header {l : Str} {s' : Nat} (h : matchState l = some s')
    (ls : List Str) (s : Nat) : itemsOfState (l :: ls) s = collectFrom s' [] ls s := by
  simp [itemsOfState, segments, collectFrom, h]

theorem collectFrom_nil (c : Nat) (acc : List Str) (s : Nat) :
    collectFrom c acc [] s = if c = s then acc.filterMap itemOf else [] := by
  by_cases h : c = s <;> simp [collectFrom, segmentsAux, segItems, h]

theorem collectFrom_cons_header (c : Nat) (acc : List Str) {l : Str} {s' : Nat}
    (h : matchState l = some s') (ls : List Str) (s : Nat) :
    collectFrom c acc (l :: ls) s =
      (if c = s then acc.filterMap itemOf else []) ++ collectFrom s' [] ls s := by
  by_cases hcs : c = s <;> simp [collectFrom, segmentsAux, segItems, h, hcs]

theorem collectFrom_cons_junk (c : Nat) (acc : List Str) {l : Str}
    (h : matchState l = none) (ls : List Str) (s : Nat) :
    collectFrom c acc (l :: ls) s = collectFrom c (acc ++ [l]) ls s := by
  simp [collectFrom, segmentsAux, h]

theorem collectFrom_acc (ls : List Str) : ∀ (c : Nat) (acc : List Str) (s : Nat),
    collectFrom c acc ls s =
      (if c = s then acc.filterMap itemOf else []) ++ collectFrom c [] ls s := by
  induction ls with
  | nil =>
    intro c acc s
    rw [collectFrom_nil, collectFrom_nil]
    by_cases h : c = s <;> simp [h]
  | cons l ls ih =>
    intro c acc s
    cases hm : matchState l with
    | some s' =>
      rw [collectFrom_cons_header c acc hm, collectFrom_cons_header c [] hm]
      by_cases h : c = s <;> simp [h]
    | none =>
      rw [collectFrom_cons_junk c acc hm, collectFrom_cons_junk c [] hm]
      simp only [List.nil_append]
      rw [ih c (acc ++ [l]), ih c [l]]
      by_cases h : c = s <;> simp [h, List.filterMap_append]

theorem scanItems_none (lines : List Str) (s : Nat) :
    scanItems none lines s = itemsOfState lines s := rfl

theorem scanItems_some (c : Nat) (lines : List Str) (s : Nat) :
    scanItems (some c) lines s = collectFrom c [] lines s := rfl

theorem scanItems_nil (cur : Option Nat) (s : Nat) : scanItems cur [] s = [] := by
  cases cur with
  | none => rfl
  | some c => rw [scanItems_some, collectFrom_nil]; simp

theorem scanItems_cons_header {l : Str} {s' : Nat} (h : matchState l = some s')
    (cur : Option Nat) (ls : List Str) (s : Nat) :
    scanItems cur (l :: ls) s = scanItems (some s') ls s := by
  cases cur with
  | none => rw [scanItems_none, itemsOfState_cons_header h, scanItems_some]
  | some c => rw [scanItems_some, collectFrom_cons_header c [] h, scanItems_some]; simp

theorem scanItems_cons_item {l : Str} {it : Item} (h : itemOf l = some it)
    (hs : (matchState l) = none) (c : Nat) (ls : List Str) (s : Nat) :
    scanItems (some c) (l :: ls) s =
      (if c = s then [it] else []) ++ scanItems (some c) ls s := by
  rw [scanItems_some, collectFrom_cons_junk c [] hs, collectFrom_acc, scanItems_some]
  by_cases hcs : c = s <;> simp [hcs, List.filterMap_cons, h]

theorem scanItems_cons_junk {l : Str} (hs : matchState l = none) (hi : itemOf l = none)
    (cur : Option Nat) (ls : List Str) (s : Nat) :
    scanItems cur (l :: ls) s = scanItems cur ls s := by
  cases cur with
  | none => rw [scanItems_none, itemsOfState_cons_junk hs, scanItems_none]
  | some c =>
    rw [scanItems_some, collectFrom_cons_junk c [] hs, collectFrom_acc, scanItems_some]
    by_cases hcs : c = s <;> simp [hcs, List.filterMap_cons, hi]

/-! ### Scan lemmas -/

theorem step_header {l : Str} {s : Nat} (h : matchState l = some s) (st : ScanState) :
    step st l = ⟨setdefault st.data s, some s, max st.maxSeen (s : Int)⟩ := by
  simp [step, h]

theorem step_item {l : Str} {iv : Str × Nat} {c : Nat} (hm : matchState l = none)
    (hI : matchItem l = some iv) (st : ScanState) (hC : st.current = some c) :
    step st l = { st with data := appendItem st.data c ⟨normalize_key iv.1, iv.2⟩ } := by
  simp [step, hm, hI, hC]

theorem step_no_item {l : Str} (hm : matchState l = none) (hI : matchItem l = none)
    (st : ScanState) : step st l = st := by
  simp [step, hm, hI]

theorem step_no_current {l : Str} (hm : matchState l = none) (st : ScanState)
    (hC : st.current = none) : step st l = st := by
  cases hI : matchItem l <;> simp [step, hm, hI, hC]

theorem scan_keys (lines : List Str) : ∀ st : ScanState,
    keys ((lines.foldl step st).data) = addKeys (keys st.data) (headedStates lines) := by
  induction lines with
  | nil => intro st; rfl
  | cons l ls ih =>
    intro st
    rw [List.foldl_cons]
    cases hm : matchState l with
    | some s =>
      rw [ih, step_header hm, headedStates_cons_header hm, addKeys]
      rw [show (⟨setdefault st.data s, some s, max st.maxSeen (s : Int)⟩ : ScanState).data
            = setdefault st.data s from rfl, keys_setdefault]
    | none =>
      have hkeys : keys ((step st l).data) = keys st.data := by
        cases hI : matchItem l with
        | some iv =>
          cases hC : st.current with
          | some c => rw [step_item hm hI st hC]; exact keys_appendItem _ _ _
          | none => rw [step_no_current hm st hC]
        | none => rw [step_no_item hm hI st]
      rw [ih, hkeys, headedStates_cons_junk hm]

theorem scan_max (lines : List Str) : ∀ st : ScanState,
    (lines.foldl step st).maxSeen =
      (headedStates lines).foldl (fun (m : Int) (s : Nat) => max m (s : Int)) st.maxSeen := by
  induction lines with
  | nil => intro st; rfl
  | cons l ls ih =>
    intro st
    rw [List.foldl_cons]
    cases hm : matchState l with
    | some s => rw [ih, step_header hm, headedStates_cons_header hm, List.foldl_cons]
    | none =>
      have hmax : (step st l).maxSeen = st.maxSeen := by
        cases hI : matchItem l with
        | some iv =>
          cases hC : st.current with
          | some c => rw [step_item hm hI st hC]
          | none => rw [step_no_current hm st hC]
        | none => rw [step_no_item hm hI st]
      rw [ih, hmax, headedStates_cons_junk hm]

theorem scan_current_ne_none (lines : List Str) : ∀ st : ScanState,
    (∀ c, st.current = some c → lookupTable st.data c ≠ none) →
    ∀ c, (lines.foldl step st).current = some c →
      lookupTable ((lines.foldl step st).data) c ≠ none := by
  induction lines with
  | nil => intro st h; exact h
  | cons l ls ih =>
    intro st hinv
    rw [List.foldl_cons]
    refine ih (step st l) ?_
    cases hm : matchState l with
    | some s =>
      rw [step_header hm]
      intro c hc
      have hc2 : some s = some c := hc
      obtain rfl := Option.some.inj hc2
      show lookupTable (setdefault st.data s) s ≠ none
      rw [lookupTable_setdefault_self]
      simp
    | none =>
      cases hI : matchItem l with
      | some iv =>
        cases hC : st.current with
        | some c0 =>
          rw [step_item hm hI st hC]
          intro c hc
          have hc2 : st.current = some c := hc
          rw [hC] at hc2
          obtain rfl := Option.some.inj hc2
          show lookupTable (appendItem st.data c0 _) c0 ≠ none
          rw [lookupTable_appendItem_self]
          intro hmap
          exact hinv c0 hC (Option.map_eq_none'.1 hmap)
        | none => rw [step_no_current hm st hC]; exact hinv
      | none => rw [step_no_item hm hI st]; exact hinv

theorem scan_lookup (lines : List Str) : ∀ (st : ScanState) (s : Nat),
    (∀ c, st.current = some c → lookupTable st.data c ≠ none) →
    lookupTable ((lines.foldl step st).data) s =
      if s ∈ keys st.data ∨ s ∈ headedStates lines
      then some ((lookupTable st.data s).getD [] ++ scanItems st.current lines s)
      else none := by
  induction lines with
  | nil =>
    intro st s _
    rw [scanItems_nil, headedStates_nil]
    by_cases hk : s ∈ keys st.data
    · rcases Option.ne_none_iff_exists'.1 (mem_keys_iff_lookup.1 hk) with ⟨v, hv⟩
      simp [hk, hv]
    · have : lookupTable st.data s = none := by
        by_contra hne
        exact hk (mem_keys_iff_lookup.2 hne)
      simp [hk, this]
  | cons l ls ih =>
    intro st s hinv
    rw [List.foldl_cons]
    cases hm : matchState l with
    | some s' =>
      have hinv' : ∀ c, (step st l).current = some c →
          lookupTable ((step st l).data) c ≠ none := by
        rw [step_header hm]
        intro c hc
        have hc2 : some s' = some c := hc
        obtain rfl := Option.some.inj hc2
        show lookupTable (setdefault st.data s') s' ≠ none
        rw [lookupTable_setdefault_self]
        simp
      rw [ih (step st l) s hinv', scanItems_cons_header hm, headedStates_cons_header hm]
      rw [step_header hm]
      simp only
      by_cases hss : s = s'
      · subst hss
        have hkmem : s ∈ keys (setdefault st.data s) := by
          rw [mem_keys_iff_lookup, lookupTable_setdefault_self]
          simp
        rw [if_pos (Or.inl hkmem), if_pos (Or.inr (List.mem_cons_self _ _))]
        rw [lookupTable_setdefault_self]
        by_cases hk : s ∈ keys st.data
        · rcases Option.ne_none_iff_exists'.1 (mem_keys_iff_lookup.1 hk) with ⟨v, hv⟩
          simp [hv]
        · have : lookupTable st.data s = none := by
            by_contra hne
            exact hk (mem_keys_iff_lookup.2 hne)
          simp [this]
      · rw [lookupTable_setdefault_other st.data hss]
        have hkeq : (s ∈ keys (setdefault st.data s') ∨ s ∈ headedStates ls) ↔
            (s ∈ keys st.data ∨ s ∈ s' :: headedStates ls) := by
          rw [mem_keys_iff_lookup, lookupTable_setdefault_other st.data hss,
            ← mem_keys_iff_lookup, List.mem_cons]
          constructor
          · rintro (h | h)
            · exact Or.inl h
            · exact Or.inr (Or.inr h)
          · rintro (h | h | h)
            · exact Or.inl h
            · exact absurd h hss
            · exact Or.inr h
        by_cases hcond : s ∈ keys st.data ∨ s ∈ s' :: headedStates ls
        · rw [if_pos (hkeq.2 hcond), if_pos hcond]
        · rw [if_neg (fun h => hcond (hkeq.1 h)), if_neg hcond]
    | none =>
      cases hI : matchItem l with
      | some iv =>
        cases hC : st.current with
        | some c =>
          have hit : itemOf l = some ⟨normalize_key iv.1, iv.2⟩ := by
            simp [itemOf, hI]
          have hinv' : ∀ c', (step st l).current = some c' →
              lookupTable ((step st l).data) c' ≠ none := by
            rw [step_item hm hI st hC]
            intro c' hc'
            have hc2 : st.current = some c' := hc'
            rw [hC] at hc2
            obtain rfl := Option.some.inj hc2
            show lookupTable (appendItem st.data c _) c ≠ none
            rw [lookupTable_appendItem_self]
            intro hmap
            exact hinv c hC (Option.map_eq_none'.1 hmap)
          rw [ih (step st l) s hinv', step_item hm hI st hC]
          simp only
          rw [hC, scanItems_cons_item hit hm, headedStates_cons_junk hm]
          rcases Option.ne_none_iff_exists'.1 (hinv c hC) with ⟨oldc, holdc⟩
          by_cases hss : s = c
          · subst hss
            have hk : s ∈ keys st.data := mem_keys_iff_lookup.2 (fun h => by
              rw [h] at holdc; cases holdc)
            have hk' : s ∈ keys (appendItem st.data s ⟨normalize_key iv.1, iv.2⟩) := by
              rw [mem_keys_iff_lookup, lookupTable_appendItem_self, holdc]
              simp
            rw [if_pos (Or.inl hk'), if_pos (Or.inl hk)]
            rw [lookupTable_appendItem_self, holdc]
            simp
          · rw [lookupTable_appendItem_other st.data hss]
            have hkeq : s ∈ keys (appendItem st.data c ⟨normalize_key iv.1, iv.2⟩) ↔
                s ∈ keys st.data := by
              rw [mem_keys_iff_lookup, lookupTable_appendItem_other st.data hss,
                ← mem_keys_iff_lookup]
            by_cases hcond : s ∈ keys st.data ∨ s ∈ headedStates ls
            · rw [if_pos (by rw [hkeq]; exact hcond), if_pos hcond]
              simp [Ne.symm hss]
            · rw [if_neg (fun h => hcond (by rw [← hkeq]; exact h)), if_neg hcond]
        | none =>
          rw [step_no_current hm st hC, ih st s hinv, hC, headedStates_cons_junk hm,
            scanItems_none, scanItems_none, itemsOfState_cons_junk hm]
      | none =>
        have hit : itemOf l = none := by simp [itemOf, hI]
        rw [step_no_item hm hI st, ih st s hinv, scanItems_cons_junk hm hit,
          headedStates_cons_junk hm]

/-! ### Gap-filling and key-order lemmas -/

theorem keys_gapfill (ss : List Nat) : ∀ d : Table,
    keys (ss.foldl (fun d s => setdefault d s) d) = addKeys (keys d) ss := by
  induction ss with
  | nil => intro d; rfl
  | cons s ss ih =>
    intro d
    rw [List.foldl_cons, ih, addKeys, keys_setdefault]

theorem lookup_gapfill (ss : List Nat) : ∀ (d : Table) (j : Nat),
    lookupTable (ss.foldl (fun d s => setdefault d s) d) j =
      if lookupTable d j = none then (if j ∈ ss then some [] else none)
      else lookupTable d j := by
  induction ss with
  | nil =>
    intro d j
    by_cases h : lookupTable d j = none <;> simp [h]
  | cons s ss ih =>
    intro d j
    rw [List.foldl_cons, ih]
    by_cases hj : j = s
    · subst hj
      rw [lookupTable_setdefault_self]
      cases h : lookupTable d j with
      | some v => simp [h]
      | none => simp [h]
    · rw [lookupTable_setdefault_other d hj]
      by_cases h : lookupTable d j = none
      · simp [h, hj]
      · simp [h]

theorem addKeys_append (xs ys : List Nat) : ∀ ks,
    addKeys ks (xs ++ ys) = addKeys (addKeys ks xs) ys := by
  induction xs with
  | nil => intro ks; rfl
  | cons x xs ih => intro ks; rw [List.cons_append, addKeys, addKeys, ih]

theorem addKeys_eq_append (ss : List Nat) : ∀ ks, ∃ e, addKeys ks ss = ks ++ e := by
  induction ss with
  | nil => intro ks; exact ⟨[], by simp [addKeys]⟩
  | cons s ss ih =>
    intro ks
    by_cases h : s ∈ ks
    · rw [addKeys, if_pos h]; exact ih ks
    · rw [addKeys, if_neg h]
      rcases ih (ks ++ [s]) with ⟨e, he⟩
      exact ⟨s :: e, by rw [he]; simp⟩

theorem mem_addKeys (ss : List Nat) : ∀ ks a, a ∈ addKeys ks ss ↔ a ∈ ks ∨ a ∈ ss := by
  induction ss with
  | nil => intro ks a; simp [addKeys]
  | cons s ss ih =>
    intro ks a
    rw [addKeys]
    by_cases h : s ∈ ks
    · rw [if_pos h, ih]
      constructor
      · rintro (ha | ha)
        · exact Or.inl ha
        · exact Or.inr (List.mem_cons_of_mem _ ha)
      · rintro (ha | ha)
        · exact Or.inl ha
        · rcases List.mem_cons.1 ha with rfl | ha
          · exact Or.inl h
          · exact Or.inr ha
    · rw [if_neg h, ih]
      simp only [List.mem_append, List.mem_singleton, List.mem_cons]
      tauto

theorem firstSeenAux_congr (ss : List Nat) : ∀ seen1 seen2,
    (∀ a, a ∈ seen1 ↔ a ∈ seen2) → firstSeenAux seen1 ss = firstSeenAux seen2 ss := by
  induction ss with
  | nil => intro seen1 seen2 _; rfl
  | cons s ss ih =>
    intro seen1 seen2 h
    by_cases h1 : s ∈ seen1
    · rw [firstSeenAux, firstSeenAux, if_pos h1, if_pos ((h s).1 h1)]
      exact ih _ _ h
    · rw [firstSeenAux, firstSeenAux, if_neg h1, if_neg (fun h2 => h1 ((h s).2 h2))]
      have := ih (s :: seen1) (s :: seen2) (fun a => by
        simp only [List.mem_cons]
        rw [h a])
      rw [this]

theorem addKeys_eq_append_firstSeenAux (ss : List Nat) : ∀ ks,
    addKeys ks ss = ks ++ firstSeenAux ks ss := by
  induction ss with
  | nil => intro ks; simp [addKeys, firstSeenAux]
  | cons s ss ih =>
    intro ks
    by_cases h : s ∈ ks
    · rw [addKeys, if_pos h, ih, firstSeenAux, if_pos h]
    · rw [addKeys, if_neg h, ih, firstSeenAux, if_neg h]
      rw [firstSeenAux_congr ss (ks ++ [s]) (s :: ks) (fun a => by
        simp only [List.mem_append, List.mem_singleton, List.mem_cons]
        tauto)]
      simp

theorem posOf_append_of_mem {k : Nat} {ks : List Nat} (h : k ∈ ks) (e : List Nat) :
    posOf k (ks ++ e) = posOf k ks := by
  induction ks with
  | nil => cases h
  | cons s ks ih =>
    by_cases hs : s = k
    · simp [posOf, hs]
    · rcases List.mem_cons.1 h with rfl | hk
      · exact absurd rfl hs
      · simp [posOf, hs, ih hk]

/-! ### `convert`-level lemmas -/

theorem convert_false (lines : List Str) :
    convert lines false = (lines.foldl step initState).data := rfl

theorem convert_true (lines : List Str) :
    convert lines true =
      (List.range (((lines.foldl step initState).maxSeen + 1).toNat)).foldl
        (fun d s => setdefault d s) (lines.foldl step initState).data := rfl

theorem initState_inv : ∀ c, initState.current = some c →
    lookupTable initState.data c ≠ none := by
  intro c h
  cases h

theorem keys_convert_false (lines : List Str) :
    keys (convert lines false) = firstSeen (headedStates lines) := by
  rw [convert_false, scan_keys]
  rw [show keys initState.data = [] from rfl]
  rw [addKeys_eq_append_firstSeenAux]
  rfl

theorem maxSeen_scan (lines : List Str) :
    (lines.foldl step initState).maxSeen = maxHeaded lines := by
  rw [scan_max]
  rfl

theorem keys_convert_true (lines : List Str) :
    keys (convert lines true) =
      addKeys (firstSeen (headedStates lines))
        (List.range ((maxHeaded lines + 1).toNat)) := by
  rw [convert_true, keys_gapfill, scan_keys, maxSeen_scan]
  rw [show keys initState.data = [] from rfl]
  rw [show addKeys [] (headedStates lines) = firstSeen (headedStates lines) by
    rw [addKeys_eq_append_firstSeenAux]; rfl]

theorem lookup_scan_init (lines : List Str) (s : Nat) :
    lookupTable ((lines.foldl step initState).data) s =
      if s ∈ headedStates lines then some (itemsOfState lines s) else none := by
  rw [scan_lookup lines initState s initState_inv]
  rw [show keys initState.data = [] from rfl,
    show lookupTable initState.data s = none from rfl,
    show initState.current = (none : Option Nat) from rfl, scanItems_none]
  by_cases hh : s ∈ headedStates lines
  · simp [hh]
  · simp [hh]

theorem lookup_convert_false (lines : List Str) (s : Nat) :
    lookupTable (convert lines false) s =
      if s ∈ headedStates lines then some (itemsOfState lines s) else none := by
  rw [convert_false, lookup_scan_init]

theorem lookup_convert_true (lines : List Str) (s : Nat) :
    lookupTable (convert lines true) s =
      if s ∈ headedStates lines then some (itemsOfState lines s)
      else if (s : Int) ≤ maxHeaded lines then some [] else none := by
  rw [convert_true, lookup_gapfill, lookup_scan_init, maxSeen_scan]
  have hrange : s ∈ List.range ((maxHeaded lines + 1).toNat) ↔
      (s : Int) ≤ maxHeaded lines := by
    rw [List.mem_range]
    omega
  by_cases hh : s ∈ headedStates lines
  · simp [hh]
  · rw [if_neg hh, if_neg hh, if_pos rfl]
    by_cases hle : (s : Int) ≤ maxHeaded lines
    · rw [if_pos (hrange.2 hle), if_pos hle]
    · rw [if_neg (fun h => hle (hrange.1 h)), if_neg hle]

theorem seg_head_mem_aux (ls : List Str) : ∀ (c : Nat) (acc : List Str)
    (seg : Nat × List Str), seg ∈ segmentsAux (c, acc) ls →
    seg.1 = c ∨ seg.1 ∈ headedStates ls := by
  induction ls with
  | nil =>
    intro c acc seg h
    rcases List.mem_singleton.1 h with rfl
    exact Or.inl rfl
  | cons l ls ih =>
    intro c acc seg h
    cases hm : matchState l with
    | some s' =>
      rw [segmentsAux, hm] at h
      rw [headedStates_cons_header hm]
      rcases List.mem_cons.1 h with rfl | h
      · exact Or.inl rfl
      · rcases ih s' [] seg h with h | h
        · exact Or.inr (by rw [h]; exact List.mem_cons_self _ _)
        · exact Or.inr (List.mem_cons_of_mem _ h)
    | none =>
      rw [segmentsAux, hm] at h
      rw [headedStates_cons_junk hm]
      exact ih c _ seg h

theorem seg_head_mem (lines : List Str) : ∀ seg ∈ segments lines,
    seg.1 ∈ headedStates lines := by
  induction lines with
  | nil => intro seg h; cases h
  | cons l ls ih =>
    intro seg h
    cases hm : matchState l with
    | some s' =>
      rw [segments, hm] at h
      rw [headedStates_cons_header hm]
      rcases seg_head_mem_aux ls s' [] seg h with h | h
      · rw [h]; exact List.mem_cons_self _ _
      · exact List.mem_cons_of_mem _ h
    | none =>
      rw [segments, hm] at h
      rw [headedStates_cons_junk hm]
      exact ih seg h

theorem itemsOfState_not_headed {lines : List Str} {s : Nat}
    (h : s ∉ headedStates lines) : itemsOfState lines s = [] := by
  unfold itemsOfState
  have hfil : (segments lines).filter (fun seg => seg.1 == s) = [] := by
    rw [List.filter_eq_nil_iff]
    intro seg hseg
    simp only [beq_iff_eq]
    intro heq
    exact h (heq ▸ seg_head_mem lines seg hseg)
  rw [hfil]
  rfl

theorem le_foldl_max (hs : List Nat) : ∀ m0 x : Int,
    x ≤ hs.foldl (fun (m : Int) (s : Nat) => max m (s : Int)) m0 ↔
      x ≤ m0 ∨ ∃ s ∈ hs, x ≤ (s : Int) := by
  induction hs with
  | nil => intro m0 x; simp
  | cons s hs ih =>
    intro m0 x
    rw [List.foldl_cons, ih]
    constructor
    · rintro (h | ⟨t, ht, hx⟩)
      · rcases le_max_iff.1 h with h | h
        · exact Or.inl h
        · exact Or.inr ⟨s, List.mem_cons_self _ _, h⟩
      · exact Or.inr ⟨t, List.mem_cons_of_mem _ ht, hx⟩
    · rintro (h | ⟨t, ht, hx⟩)
      · exact Or.inl (le_max_iff.2 (Or.inl h))
      · rcases List.mem_cons.1 ht with rfl | ht
        · exact Or.inl (le_max_iff.2 (Or.inr hx))
        · exact Or.inr ⟨t, ht, hx⟩

theorem le_maxHeaded_iff (lines : List Str) (k : Nat) :
    (k : Int) ≤ maxHeaded lines ↔ ∃ s ∈ headedStates lines, k ≤ s := by
  unfold maxHeaded
  rw [le_foldl_max]
  constructor
  · rintro (h | ⟨s, hs, hx⟩)
    · exfalso; omega
    · exact ⟨s, hs, by exact_mod_cast hx⟩
  · rintro ⟨s, hs, hx⟩
    exact Or.inr ⟨s, hs, by exact_mod_cast hx⟩

theorem firstSeen_eq_addKeys (ss : List Nat) : firstSeen ss = addKeys [] ss := by
  rw [addKeys_eq_append_firstSeenAux]
  rfl

theorem mem_firstSeen (ss : List Nat) (a : Nat) : a ∈ firstSeen ss ↔ a ∈ ss := by
  rw [firstSeen_eq_addKeys, mem_addKeys]
  simp

theorem collectFrom_append_header {hdr : Str} {h : Nat} (hh : matchState hdr = some h)
    (ys : List Str) (s : Nat) : ∀ (xs : List Str) (c : Nat) (acc : List Str),
    collectFrom c acc (xs ++ hdr :: ys) s =
      collectFrom c acc xs s ++ collectFrom h [] ys s := by
  intro xs
  induction xs with
  | nil =>
    intro c acc
    rw [List.nil_append, collectFrom_cons_header c acc hh, collectFrom_nil]
  | cons l xs ih =>
    intro c acc
    cases hm : matchState l with
    | some t =>
      rw [List.cons_append, collectFrom_cons_header c acc hm,
        collectFrom_cons_header c acc hm, ih, List.append_assoc]
    | none =>
      rw [List.cons_append, collectFrom_cons_junk c acc hm,
        collectFrom_cons_junk c acc hm, ih]

theorem itemsOfState_append_header {hdr : Str} {h : Nat} (hh : matchState hdr = some h)
    (ys : List Str) (s : Nat) : ∀ xs : List Str,
    itemsOfState (xs ++ hdr :: ys) s = itemsOfState xs s ++ itemsOfState (hdr :: ys) s := by
  intro xs
  induction xs with
  | nil => rw [List.nil_append, itemsOfState_nil, List.nil_append]
  | cons l xs ih =>
    cases hm : matchState l with
    | some t =>
      rw [List.cons_append, itemsOfState_cons_header hm, itemsOfState_cons_header hm,
        collectFrom_append_header hh ys s xs t [], itemsOfState_cons_header hh]
    | none =>
      rw [List.cons_append, itemsOfState_cons_junk hm, itemsOfState_cons_junk hm, ih]

example : normalize_key "T, ID, T, =, NT, Expr".data = "[ID, =, Expr]".data := by decide

example : matchState "  State 12  ".data = some 12 := by decide

example : matchState "State".data = none := by decide

example : matchItem "[a], [b]: 5".data = some ("a], [b".data, 5) := by decide

example : matchItem "[X]: -5".data = none := by decide

example :
    convert ["State 0".data, "[T, ID, T, =, NT, Expr]: 5".data, "State 2".data] true =
      [(0, [⟨"[ID, =, Expr]".data, 5⟩]), (2, []), (1, [])] := by decide

example :
    convert ["State 0".data, "[T, ID, T, =, NT, Expr]: 5".data, "State 2".data] false =
      [(0, [⟨"[ID, =, Expr]".data, 5⟩]), (2, [])] := by decide

/-! ### Claims -/

/-- C1: for every input, every item line appearing after a given state header
and before the next state header (or end of input) is appended to that
header's state, and the item sequence recorded for each state is exactly the
item lines of that state's segments, in the original input order. -/
theorem c1_items_per_state (lines : List Str) (flag : Bool) (s : Nat)
    (its : List Item) (h : lookupTable (convert lines flag) s = some its) :
    its = itemsOfState lines s := by
  cases flag with
  | false =>
    rw [lookup_convert_false] at h
    by_cases hh : s ∈ headedStates lines
    · rw [if_pos hh] at h
      exact (Option.some.inj h).symm
    · rw [if_neg hh] at h
      cases h
  | true =>
    rw [lookup_convert_true] at h
    by_cases hh : s ∈ headedStates lines
    · rw [if_pos hh] at h
      exact (Option.some.inj h).symm
    · rw [if_neg hh] at h
      by_cases hle : (s : Int) ≤ maxHeaded lines
      · rw [if_pos hle] at h
        rw [itemsOfState_not_headed hh]
        exact (Option.some.inj h).symm
      · rw [if_neg hle] at h
        cases h

/-- Witness for C1 at a concrete input. -/
theorem c1_witness :
    lookupTable (convert ["State 0".data, "[T, ID]: 5".data, "State 1".data,
        "[x]: 2".data] true) 0 = some [⟨"[ID]".data, 5⟩] ∧
    [⟨"[ID]".data, 5⟩] = itemsOfState ["State 0".data, "[T, ID]: 5".data,
        "State 1".data, "[x]: 2".data] 0 :=
  ⟨by decide, c1_items_per_state ["State 0".data, "[T, ID]: 5".data,
    "State 1".data, "[x]: 2".data] true 0 [⟨"[ID]".data, 5⟩] (by decide)⟩

/-- C2: with gap-filling enabled the key set of the table is exactly
`{0, ..., maxState}` (a key is present iff some header's state bounds it
from above), and the table is empty when no header was ever seen. -/
theorem c2_gapfill_keyset (lines : List Str) :
    (∀ k, k ∈ keys (convert lines true) ↔ ∃ s ∈ headedStates lines, k ≤ s) ∧
    (headedStates lines = [] → convert lines true = []) := by
  constructor
  · intro k
    rw [keys_convert_true, mem_addKeys]
    constructor
    · rintro (h | h)
      · exact ⟨k, (mem_firstSeen _ _).1 h, le_refl k⟩
      · rw [List.mem_range] at h
        refine (le_maxHeaded_iff lines k).1 ?_
        omega
    · rintro ⟨s, hs, hks⟩
      refine Or.inr ?_
      rw [List.mem_range]
      have := (le_maxHeaded_iff lines k).2 ⟨s, hs, hks⟩
      omega
  · intro hempty
    have hmax : maxHeaded lines = -1 := by
      unfold maxHeaded
      rw [hempty]
      rfl
    have hk : keys (convert lines true) = [] := by
      rw [keys_convert_true, hempty, hmax]
      rfl
    unfold keys at hk
    exact List.map_eq_nil_iff.1 hk

/-- Witness for C2 (the second conjunct has a hypothesis): a header-free
input yields an empty table. -/
theorem c2_witness :
    convert ["[x]: 3".data] true = [] :=
  (c2_gapfill_keyset ["[x]: 3".data]).2 (by decide)

/-- C5: with gap-filling disabled the key list of the table is exactly the
state indices that appeared as explicit headers, in first-seen order. -/
theorem c5_noempty_keys (lines : List Str) :
    keys (convert lines false) = firstSeen (headedStates lines) := by
  rw [keys_convert_false]

/-- C6 counterexample: with gap-filling enabled the member names are NOT in
numeric-ascending order for every input; headers seen out of numeric order
keep their first-seen order. -/
theorem c6_counterexample :
    keys (convert ["State 1".data, "State 0".data] true) = [1, 0] ∧
    ¬ List.Sorted (· ≤ ·) (keys (convert ["State 1".data, "State 0".data] true)) := by
  constructor
  · decide
  · intro hs
    have h01 : (1 : Nat) ≤ 0 := by
      have hk : keys (convert ["State 1".data, "State 0".data] true) = [1, 0] := by decide
      rw [hk] at hs
      exact List.rel_of_sorted_cons hs 0 (List.mem_singleton.2 rfl)
    omega

/-- C6 amended: with gap-filling enabled the member names appear in the order
the table was populated: explicit headers in first-seen order, followed by
the gap-filled missing states in ascending numeric order. -/
theorem c6_amended_key_order (lines : List Str) :
    keys (convert lines true) =
      addKeys (firstSeen (headedStates lines))
        (List.range ((maxHeaded lines + 1).toNat)) := by
  rw [keys_convert_true]

/-- C7: every line before the first state header (in particular every item
line there) is silently discarded and contributes nothing to the output,
regardless of the gap-filling flag. -/
theorem c7_prefix_dropped (pre rest : List Str) (flag : Bool)
    (h : ∀ l ∈ pre, matchState l = none) :
    convert (pre ++ rest) flag = convert rest flag := by
  have hfold : ∀ p : List Str, (∀ l ∈ p, matchState l = none) →
      p.foldl step initState = initState := by
    intro p
    induction p with
    | nil => intro _; rfl
    | cons l p ih =>
      intro h2
      rw [List.foldl_cons, step_no_current (h2 l (List.mem_cons_self _ _)) initState rfl]
      exact ih (fun l' hl' => h2 l' (List.mem_cons_of_mem _ hl'))
  cases flag with
  | false => rw [convert_false, convert_false, List.foldl_append, hfold pre h]
  | true => rw [convert_true, convert_true, List.foldl_append, hfold pre h]

/-- Witness for C7: an item line before the first header produces nothing. -/
theorem c7_witness :
    convert (["[X]: 5".data] ++ ["State 0".data]) true =
      convert ["State 0".data] true :=
  c7_prefix_dropped ["[X]: 5".data] ["State 0".data] true (by decide)

/-- C9: a repeated `State s` header neither resets nor clears the state:
items of all its segments accumulate into one list in source order, and the
key keeps the position of its first appearance. -/
theorem c9_reheader (pre post : List Str) (hdr : Str) (flag : Bool) (s : Nat)
    (h1 : matchState hdr = some s) (h2 : s ∈ headedStates pre) :
    lookupTable (convert (pre ++ hdr :: post) flag) s =
      some (itemsOfState pre s ++ itemsOfState (hdr :: post) s) ∧
    posOf s (keys (convert (pre ++ hdr :: post) flag)) =
      posOf s (keys (convert pre flag)) := by
  have hmem : s ∈ headedStates (pre ++ hdr :: post) := by
    rw [headedStates_append]
    exact List.mem_append_left _ h2
  have hmemA : s ∈ addKeys [] (headedStates pre) := by
    rw [← firstSeen_eq_addKeys]
    exact (mem_firstSeen _ _).2 h2
  have hhs : headedStates (pre ++ hdr :: post) =
      headedStates pre ++ (s :: headedStates post) := by
    rw [headedStates_append, headedStates_cons_header h1]
  constructor
  · have hsplit := itemsOfState_append_header h1 post s pre
    cases flag with
    | false => rw [lookup_convert_false, if_pos hmem, hsplit]
    | true => rw [lookup_convert_true, if_pos hmem, hsplit]
  · cases flag with
    | false =>
      rw [keys_convert_false, keys_convert_false, hhs, firstSeen_eq_addKeys,
        addKeys_append]
      rcases addKeys_eq_append (s :: headedStates post)
        (addKeys [] (headedStates pre)) with ⟨e, he⟩
      rw [he, posOf_append_of_mem hmemA e, ← firstSeen_eq_addKeys]
    | true =>
      rw [keys_convert_true, keys_convert_true, hhs, firstSeen_eq_addKeys,
        addKeys_append]
      rcases addKeys_eq_append (s :: headedStates post)
        (addKeys [] (headedStates pre)) with ⟨e1, he1⟩
      rw [he1]
      rcases addKeys_eq_append
        (List.range ((maxHeaded (pre ++ hdr :: post) + 1).toNat))
        (addKeys [] (headedStates pre) ++ e1) with ⟨e2, he2⟩
      rw [he2, List.append_assoc, posOf_append_of_mem hmemA (e1 ++ e2)]
      rcases addKeys_eq_append (List.range ((maxHeaded pre + 1).toNat))
        (firstSeen (headedStates pre)) with ⟨e3, he3⟩
      rw [he3, posOf_append_of_mem ((mem_firstSeen _ _).2 h2) e3,
        ← firstSeen_eq_addKeys]

/-- Witness for C9 at a concrete input. -/
theorem c9_witness :
    lookupTable (convert (["State 0".data, "[a]: 1".data] ++
        "State 0".data :: ["[b]: 2".data]) false) 0 =
      some (itemsOfState ["State 0".data, "[a]: 1".data] 0 ++
        itemsOfState ("State 0".data :: ["[b]: 2".data]) 0) ∧
    posOf 0 (keys (convert (["State 0".data, "[a]: 1".data] ++
        "State 0".data :: ["[b]: 2".data]) false)) =
      posOf 0 (keys (convert ["State 0".data, "[a]: 1".data] false)) :=
  c9_reheader ["State 0".data, "[a]: 1".data] ["[b]: 2".data]
    "State 0".data false 0 (by decide) (by decide)

/-! ### `strip` and `splitComma` lemmas -/

theorem dropWhile_self (p : Char → Bool) (s : Str) :
    (s.dropWhile p).dropWhile p = s.dropWhile p := by
  induction s with
  | nil => rfl
  | cons c cs ih =>
    by_cases h : p c
    · simp [List.dropWhile_cons, h, ih]
    · simp [List.dropWhile_cons, h]

theorem dropTrailing_idem (s : Str) : dropTrailing (dropTrailing s) = dropTrailing s := by
  induction s with
  | nil => rfl
  | cons c cs ih =>
    cases hd : dropTrailing cs with
    | nil =>
      by_cases h : pyIsSpace c
      · simp [dropTrailing, hd, h]
      · simp [dropTrailing, hd, h]
    | cons x xs =>
      rw [hd] at ih
      have h1 : dropTrailing (c :: cs) = c :: x :: xs := by
        rw [dropTrailing, hd]
      rw [h1, dropTrailing, ih]

theorem dropWhile_dropTrailing (u : Str) (hu : u.dropWhile pyIsSpace = u) :
    (dropTrailing u).dropWhile pyIsSpace = dropTrailing u := by
  cases u with
  | nil => rfl
  | cons c cs =>
    have hc : pyIsSpace c = false := by
      by_cases h : pyIsSpace c
      · exfalso
        rw [List.dropWhile_cons, if_pos h] at hu
        have := congrArg List.length hu
        have hlen : (cs.dropWhile pyIsSpace).length ≤ cs.length :=
          List.Sublist.length_le (List.dropWhile_sublist _)
        simp at this
        omega
      · simpa using h
    cases hd : dropTrailing cs with
    | nil =>
      rw [dropTrailing, hd]
      simp [hc]
    | cons x xs =>
      rw [dropTrailing, hd]
      simp [List.dropWhile_cons, hc]

theorem strip_idem (s : Str) : strip (strip s) = strip s := by
  unfold strip
  rw [dropWhile_dropTrailing _ (dropWhile_self pyIsSpace s), dropTrailing_idem]

theorem mem_dropTrailing {a : Char} : ∀ {s : Str}, a ∈ dropTrailing s → a ∈ s := by
  intro s
  induction s with
  | nil => intro h; cases h
  | cons c cs ih =>
    intro h
    cases hd : dropTrailing cs with
    | nil =>
      rw [dropTrailing, hd] at h
      by_cases hc : pyIsSpace c
      · rw [if_pos hc] at h; cases h
      · rw [if_neg hc] at h
        rcases List.mem_singleton.1 h with rfl
        exact List.mem_cons_self _ _
    | cons x xs =>
      rw [dropTrailing, hd] at h
      rcases List.mem_cons.1 h with rfl | h2
      · exact List.mem_cons_self _ _
      · exact List.mem_cons_of_mem _ (ih (hd ▸ h2))

theorem mem_dropWhile {a : Char} {p : Char → Bool} : ∀ {s : Str}, a ∈ s.dropWhile p → a ∈ s := by
  intro s
  induction s with
  | nil => intro h; cases h
  | cons c cs ih =>
    intro h
    by_cases hc : p c
    · rw [List.dropWhile_cons, if_pos hc] at h
      exact List.mem_cons_of_mem _ (ih h)
    · rw [List.dropWhile_cons, if_neg hc] at h
      exact h

theorem mem_strip {a : Char} {s : Str} (h : a ∈ strip s) : a ∈ s :=
  mem_dropWhile (mem_dropTrailing h)

theorem strip_cons_space (q : Str) : strip (' ' :: q) = strip q := by
  unfold strip
  rw [List.dropWhile_cons]
  simp [pyIsSpace]

theorem splitComma_ne_nil (s : Str) : splitComma s ≠ [] := by
  induction s with
  | nil => simp [splitComma]
  | cons c cs ih =>
    by_cases h : c = ','
    · simp [splitComma, h]
    · cases ht : splitComma cs with
      | nil => exact absurd ht ih
      | cons t ts => simp [splitComma, h, ht]

theorem mem_splitComma_no_comma (s : Str) : ∀ t ∈ splitComma s, ',' ∉ t := by
  induction s with
  | nil =>
    intro t ht
    rcases List.mem_singleton.1 ht with rfl
    simp
  | cons c cs ih =>
    intro t ht
    by_cases h : c = ','
    · simp only [splitComma, h, if_pos rfl] at ht
      rcases List.mem_cons.1 ht with rfl | ht2
      · simp
      · exact ih t ht2
    · cases hsp : splitComma cs with
      | nil => exact absurd hsp (splitComma_ne_nil cs)
      | cons u us =>
        simp only [splitComma, h, if_false, hsp] at ht
        rcases List.mem_cons.1 ht with rfl | ht2
        · intro hmem
          rcases List.mem_cons.1 hmem with hcc | hc2
          · exact h hcc.symm
          · exact ih u (hsp ▸ List.mem_cons_self _ _) hc2
        · exact ih t (hsp ▸ List.mem_cons_of_mem _ ht2)

theorem splitComma_append_comma (rest : Str) : ∀ t : Str, ',' ∉ t →
    splitComma (t ++ ',' :: rest) = t :: splitComma rest := by
  intro t
  induction t with
  | nil => intro _; simp [splitComma]
  | cons c t ih =>
    intro h
    have hc : ¬ c = ',' := fun hcc => h (hcc ▸ List.mem_cons_self _ _)
    have h2 : ',' ∉ t := fun hm => h (List.mem_cons_of_mem _ hm)
    rw [List.cons_append]
    simp [splitComma, hc, ih h2]

theorem splitComma_no_comma : ∀ t : Str, ',' ∉ t → splitComma t = [t] := by
  intro t
  induction t with
  | nil => intro _; rfl
  | cons c t ih =>
    intro h
    have hc : ¬ c = ',' := fun hcc => h (hcc ▸ List.mem_cons_self _ _)
    have h2 : ',' ∉ t := fun hm => h (List.mem_cons_of_mem _ hm)
    simp [splitComma, hc, ih h2]

theorem splitComma_joinComma : ∀ ts : List Str, ts ≠ [] → (∀ t ∈ ts, ',' ∉ t) →
    splitComma (joinComma ts) = ts := by
  intro ts
  induction ts with
  | nil => intro h _; exact absurd rfl h
  | cons t ts ih =>
    intro _ hall
    cases ts with
    | nil => exact splitComma_no_comma t (hall t (List.mem_cons_self _ _))
    | cons t2 ts2 =>
      rw [joinComma, splitComma_append_comma _ t (hall t (List.mem_cons_self _ _)),
        ih (by simp) (fun u hu => hall u (List.mem_cons_of_mem _ hu))]

theorem splitComma_joinCommaSpace : ∀ (ps : List Str) (p : Str), ',' ∉ p →
    (∀ q ∈ ps, ',' ∉ q) →
    splitComma (joinCommaSpace (p :: ps)) = p :: ps.map (fun q => ' ' :: q) := by
  intro ps
  induction ps with
  | nil =>
    intro p hp _
    exact splitComma_no_comma p hp
  | cons q ps ih =>
    intro p hp hall
    rw [joinCommaSpace, splitComma_append_comma (' ' :: joinCommaSpace (q :: ps)) p hp]
    have hih := ih q (hall q (List.mem_cons_self _ _))
      (fun r hr => hall r (List.mem_cons_of_mem _ hr))
    rw [show splitComma (' ' :: joinCommaSpace (q :: ps)) =
        (' ' :: q) :: ps.map (fun r => ' ' :: r) by simp [splitComma, hih]]
    simp

theorem isKept_iff (p : Str) :
    isKept p = true ↔ (p ≠ "T".data ∧ p ≠ "NT".data ∧ p ≠ []) := by
  simp [isKept, and_assoc]

theorem normalize_key_of_parts : ∀ parts : List Str,
    (∀ p ∈ parts, strip p = p) → (∀ p ∈ parts, ',' ∉ p) →
    (∀ p ∈ parts, isKept p = true) →
    normalize_key (joinCommaSpace parts) = '[' :: (joinCommaSpace parts ++ [']']) := by
  intro parts hfix hnc hkept
  cases parts with
  | nil => rfl
  | cons p ps =>
    unfold normalize_key
    rw [splitComma_joinCommaSpace ps p (hnc p (List.mem_cons_self _ _))
      (fun q hq => hnc q (List.mem_cons_of_mem _ hq))]
    rw [List.map_cons, hfix p (List.mem_cons_self _ _), List.map_map]
    have hmap : ps.map (strip ∘ fun q => ' ' :: q) = ps := by
      have hcong : ∀ q ∈ ps, (strip ∘ fun q => ' ' :: q) q = id q := by
        intro q hq
        simp only [Function.comp, id]
        rw [strip_cons_space, hfix q (List.mem_cons_of_mem _ hq)]
      rw [List.map_congr_left hcong, List.map_id]
    rw [hmap, List.filter_eq_self.2 hkept]

/-- C3: `normalize_key` splits on commas, trims each token, drops every token
that (after trimming) is exactly `T`, exactly `NT`, or empty, keeps all
other trimmed tokens verbatim, and rejoins them with `", "` inside square
brackets. -/
theorem c3_normalize_tokens (ts : List Str) (hne : ts ≠ [])
    (hnc : ∀ t ∈ ts, ',' ∉ t) :
    normalize_key (joinComma ts) =
      '[' :: (joinCommaSpace ((ts.map strip).filter isKept) ++ [']']) := by
  unfold normalize_key
  rw [splitComma_joinComma ts hne hnc]

/-- Witness for C3 at a concrete token list. -/
theorem c3_witness :
    normalize_key (joinComma ["T ".data, " ID".data, "NT".data, " = ".data,
        "  ".data, "Expr".data]) =
      '[' :: (joinCommaSpace (((["T ".data, " ID".data, "NT".data, " = ".data,
        "  ".data, "Expr".data] : List Str).map strip).filter isKept) ++ [']']) :=
  c3_normalize_tokens ["T ".data, " ID".data, "NT".data, " = ".data,
    "  ".data, "Expr".data] (by decide) (by decide)

/-- C4: normalization is idempotent on its output domain: if the
comma-separated tokens of `inner` contain (after trimming) no `T`, no `NT`
and no empty token, then normalizing the inner text of the already
normalized key yields the same key. -/
theorem c4_normalize_idem (inner : Str)
    (h : ∀ p ∈ (splitComma inner).map strip,
      p ≠ "T".data ∧ p ≠ "NT".data ∧ p ≠ []) :
    normalize_key (innerText (normalize_key inner)) = normalize_key inner := by
  have hfix : ∀ p ∈ (splitComma inner).map strip, strip p = p := by
    intro p hp
    rcases List.mem_map.1 hp with ⟨u, _, rfl⟩
    exact strip_idem u
  have hnocomma : ∀ p ∈ (splitComma inner).map strip, ',' ∉ p := by
    intro p hp hc
    rcases List.mem_map.1 hp with ⟨u, hu, rfl⟩
    exact mem_splitComma_no_comma inner u hu (mem_strip hc)
  have hkept : ∀ p ∈ (splitComma inner).map strip, isKept p = true :=
    fun p hp => (isKept_iff p).2 (h p hp)
  have hfil : ((splitComma inner).map strip).filter isKept =
      (splitComma inner).map strip := List.filter_eq_self.2 hkept
  have hinner : innerText (normalize_key inner) =
      joinCommaSpace (((splitComma inner).map strip).filter isKept) := by
    unfold normalize_key innerText
    simp
  rw [hinner, hfil, normalize_key_of_parts ((splitComma inner).map strip)
    hfix hnocomma hkept]
  unfold normalize_key
  rw [hfil]

/-- Witness for C4 at a concrete inner text. -/
theorem c4_witness :
    normalize_key (innerText (normalize_key "ID, =, Expr".data)) =
      normalize_key "ID, =, Expr".data :=
  c4_normalize_idem "ID, =, Expr".data (by decide)

/-! ### Matcher inversion lemmas -/

theorem dropWhile_eq_cons_decomp {p : Char → Bool} : ∀ {l : Str} {x : Char} {r : Str},
    l.dropWhile p = x :: r →
    ∃ w, l = w ++ x :: r ∧ (∀ c ∈ w, p c = true) ∧ p x = false := by
  intro l
  induction l with
  | nil => intro x r h; cases h
  | cons c cs ih =>
    intro x r h
    by_cases hp : p c = true
    · rw [List.dropWhile_cons, if_pos hp] at h
      rcases ih h with ⟨w, heq, hw, hx⟩
      refine ⟨c :: w, by rw [List.cons_append, heq], ?_, hx⟩
      intro a ha
      rcases List.mem_cons.1 ha with rfl | ha2
      · exact hp
      · exact hw a ha2
    · rw [List.dropWhile_cons, if_neg hp] at h
      injection h with h1 h2
      subst h1
      subst h2
      refine ⟨[], by simp, ?_, ?_⟩
      · intro a ha
        cases ha
      · simpa using hp

theorem digitsThenSpace_inversion {r2 : Str} {v : Nat}
    (h : digitsThenSpace r2 = some v) :
    ∃ ds w, r2 = ds ++ w ∧ ds ≠ [] ∧ (∀ c ∈ ds, c.isDigit = true) ∧
      (∀ c ∈ w, pyIsSpace c = true) ∧ v = digitsToNat ds := by
  simp only [digitsThenSpace] at h
  by_cases hcond : (!(r2.takeWhile Char.isDigit).isEmpty &&
      (r2.dropWhile Char.isDigit).all pyIsSpace) = true
  · rw [if_pos hcond] at h
    injection h with hv
    rw [Bool.and_eq_true] at hcond
    obtain ⟨h1, h2⟩ := hcond
    refine ⟨r2.takeWhile Char.isDigit, r2.dropWhile Char.isDigit,
      (List.takeWhile_append_dropWhile _ _).symm, ?_, ?_, ?_, hv.symm⟩
    · intro hnil
      rw [hnil] at h1
      simp at h1
    · intro c hc
      exact List.mem_takeWhile_imp hc
    · intro c hc
      exact List.all_eq_true.1 h2 c hc
  · rw [if_neg hcond] at h
    cases h

theorem tailValue_inversion : ∀ {tail : Str} {v : Nat}, tailValue tail = some v →
    ∃ w2 w3 ds w4, tail = w2 ++ ':' :: (w3 ++ (ds ++ w4)) ∧
      (∀ c ∈ w2, pyIsSpace c = true) ∧ (∀ c ∈ w3, pyIsSpace c = true) ∧
      ds ≠ [] ∧ (∀ c ∈ ds, c.isDigit = true) ∧
      (∀ c ∈ w4, pyIsSpace c = true) ∧ v = digitsToNat ds := by
  intro tail v h
  unfold tailValue at h
  split at h
  · rename_i r heq
    rcases dropWhile_eq_cons_decomp heq with ⟨w2, heq2, hw2, _⟩
    rcases digitsThenSpace_inversion h with ⟨ds, w4, heqr, hds, hdig, hw4, hv⟩
    have heqr2 : r = r.takeWhile pyIsSpace ++ (ds ++ w4) := by
      rw [← heqr, List.takeWhile_append_dropWhile]
    exact ⟨w2, r.takeWhile pyIsSpace, ds, w4, by rw [heq2, ← heqr2],
      hw2, fun c hc => List.mem_takeWhile_imp hc, hds, hdig, hw4, hv⟩
  · cases h

theorem splitLastBracket_inversion : ∀ {l inner : Str} {v : Nat},
    splitLastBracket l = some (inner, v) →
    ∃ tail, l = inner ++ ']' :: tail ∧ tailValue tail = some v := by
  intro l
  induction l with
  | nil => intro inner v h; cases h
  | cons c cs ih =>
    intro inner v h
    cases hs : splitLastBracket cs with
    | some iv =>
      obtain ⟨i2, v2⟩ := iv
      rw [splitLastBracket, hs] at h
      have h2 : some (c :: i2, v2) = some (inner, v) := h
      injection h2 with h3
      injection h3 with hkey hval
      subst hkey
      subst hval
      rcases ih hs with ⟨tail, heq, ht⟩
      exact ⟨tail, by rw [heq, List.cons_append], ht⟩
    | none =>
      rw [splitLastBracket, hs] at h
      have h2 : (if c = ']' then (tailValue cs).map (fun v => (([] : Str), v))
          else none) = some (inner, v) := h
      by_cases hc : c = ']'
      · rw [if_pos hc] at h2
        cases ht : tailValue cs with
        | none => rw [ht] at h2; cases h2
        | some v' =>
          rw [ht] at h2
          have h3 : some (([] : Str), v') = some (inner, v) := h2
          injection h3 with h4
          injection h4 with hkey hval
          subst hkey
          subst hval
          exact ⟨cs, by simp [hc], ht⟩
      · rw [if_neg hc] at h2
        cases h2

theorem matchItem_eq_some : ∀ {line inner : Str} {v : Nat},
    matchItem line = some (inner, v) →
    ∃ w1 rest, line = w1 ++ '[' :: rest ∧ (∀ c ∈ w1, pyIsSpace c = true) ∧
      splitLastBracket rest = some (inner, v) := by
  intro line inner v h
  unfold matchItem at h
  split at h
  · rename_i rest heq
    rcases dropWhile_eq_cons_decomp heq with ⟨w1, heq1, hw1, _⟩
    exact ⟨w1, rest, heq1, hw1, h⟩
  · cases h

theorem splitLastBracket_none : ∀ {l : Str}, ']' ∉ l → splitLastBracket l = none := by
  intro l
  induction l with
  | nil => intro _; rfl
  | cons c cs ih =>
    intro h
    have hc : ¬ c = ']' := fun hcc => h (hcc ▸ List.mem_cons_self _ _)
    have h2 : ']' ∉ cs := fun hm => h (List.mem_cons_of_mem _ hm)
    rw [splitLastBracket, ih h2]
    simp [hc]

theorem splitLastBracket_append {tail : Str} {v : Nat} (ht : tailValue tail = some v)
    (hnb : ']' ∉ tail) : ∀ xs : Str, splitLastBracket (xs ++ ']' :: tail) = some (xs, v) := by
  intro xs
  induction xs with
  | nil =>
    rw [List.nil_append, splitLastBracket, splitLastBracket_none hnb]
    simp [ht]
  | cons x xs ih =>
    rw [List.cons_append, splitLastBracket, ih]

theorem dropWhile_append_all {p : Char → Bool} : ∀ {w : Str}, (∀ c ∈ w, p c = true) →
    ∀ l : Str, (w ++ l).dropWhile p = l.dropWhile p := by
  intro w
  induction w with
  | nil => intro _ l; rfl
  | cons c w ih =>
    intro h l
    rw [List.cons_append, List.dropWhile_cons, if_pos (h c (List.mem_cons_self _ _)),
      ih (fun a ha => h a (List.mem_cons_of_mem _ ha))]

/-- C8: an item line matches only when the text after the colon is a plain
unsigned digit sequence (up to surrounding whitespace): any successful
`ITEM_RE` match decomposes the line into whitespace, `[`, the inner capture,
`]`, whitespace, `:`, whitespace, a non-empty digit run, and whitespace, and
the recorded value is the (non-negative) number denoted by that digit run. -/
theorem c8_item_value_digits (line inner : Str) (v : Nat)
    (h : matchItem line = some (inner, v)) :
    ∃ w1 w2 w3 ds w4,
      line = w1 ++ '[' :: (inner ++ ']' :: (w2 ++ ':' :: (w3 ++ (ds ++ w4)))) ∧
      (∀ c ∈ w1, pyIsSpace c = true) ∧ (∀ c ∈ w2, pyIsSpace c = true) ∧
      (∀ c ∈ w3, pyIsSpace c = true) ∧ ds ≠ [] ∧
      (∀ c ∈ ds, c.isDigit = true) ∧ (∀ c ∈ w4, pyIsSpace c = true) ∧
      v = digitsToNat ds := by
  rcases matchItem_eq_some h with ⟨w1, rest, heq1, hw1, hsplit⟩
  rcases splitLastBracket_inversion hsplit with ⟨tail, heq2, htail⟩
  rcases tailValue_inversion htail with ⟨w2, w3, ds, w4, heq3, hw2, hw3, hds, hdig, hw4, hv⟩
  exact ⟨w1, w2, w3, ds, w4, by rw [heq1, heq2, heq3], hw1, hw2, hw3, hds, hdig, hw4, hv⟩

/-- Witness for C8 at the line `[X]: 5`. -/
theorem c8_witness :
    ∃ w1 w2 w3 ds w4,
      "[X]: 5".data = w1 ++ '[' :: ("X".data ++ ']' :: (w2 ++ ':' :: (w3 ++ (ds ++ w4)))) ∧
      (∀ c ∈ w1, pyIsSpace c = true) ∧ (∀ c ∈ w2, pyIsSpace c = true) ∧
      (∀ c ∈ w3, pyIsSpace c = true) ∧ ds ≠ [] ∧
      (∀ c ∈ ds, c.isDigit = true) ∧ (∀ c ∈ w4, pyIsSpace c = true) ∧
      5 = digitsToNat ds :=
  c8_item_value_digits "[X]: 5".data "X".data 5 (by decide)

/-- C10: `(.*)` is greedy: for an item line whose inner text contains `]`
characters, the captured inner text extends to the last `]` of the line whose
suffix still matches `\s*:\s*(\d+)\s*$`, and the line is recognized. -/
theorem c10_greedy_last_bracket (ws xs tail : Str) (v : Nat)
    (hws : ∀ c ∈ ws, pyIsSpace c = true) (ht : tailValue tail = some v)
    (hnb : ']' ∉ tail) :
    matchItem (ws ++ '[' :: (xs ++ ']' :: tail)) = some (xs, v) := by
  unfold matchItem
  rw [dropWhile_append_all hws, List.dropWhile_cons,
    if_neg (by decide : ¬ pyIsSpace '[' = true)]
  exact splitLastBracket_append ht hnb xs

/-- Witness for C10 at the line `[a], [b]: 5`: the inner capture is
`a], [b`, which itself contains `]`. -/
theorem c10_witness :
    matchItem ([] ++ '[' :: ("a], [b".data ++ ']' :: ": 5".data)) =
      some ("a], [b".data, 5) :=
  c10_greedy_last_bracket [] "a], [b".data ": 5".data 5 (by decide) (by decide)
    (by decide)
